import Mathlib

/-!
Shallow embedding of the MLang expression-compiler front end (src/src/lexer.rs,
src/src/token.rs, src/src/ast.rs, src/src/parser.rs, src/src/error.rs).

Numbers: the Rust code computes on `f64`.  The embedding uses exact rationals
(`ℚ`); the spec's statements are "within floating-point tolerance", and every
operation the claims depend on (`+ - * /`, comparisons, the literal `0.5`) is
exact.  `f64::powf` is modelled by `fpow`, which is exact on integer exponents
and otherwise returns a junk value; the development only relies on
`powf x 0 = 1`, `powf x 1 = x` (true of IEEE `powf`) and on the evaluator and
the constant folder calling the same function.

Character classes: the Rust code uses Unicode classes (`char::is_numeric`,
`is_alphabetic`, `is_alphanumeric`, `is_whitespace`); the embedding uses their
ASCII fragments, which is where every claim lives.
-/

/-- Models `f64::powf`.  Exact for integer exponents; junk (0) elsewhere.
Only `fpow x 0 = 1`, `fpow x 1 = x`, and evaluator/folder agreement are used. -/
def fpow (x y : ℚ) : ℚ :=
  if y.den = 1 then x ^ y.num else 0

theorem fpow_zero (x : ℚ) : fpow x 0 = 1 := by simp [fpow]

theorem fpow_one (x : ℚ) : fpow x 1 = x := by simp [fpow]

/-- ASCII fragment of Rust `char::is_whitespace`. -/
def rustIsWhitespace (c : Char) : Bool :=
  c = ' ' || c = '\t' || c = '\n' || c = '\r'

/-- ASCII fragment of Rust `char::is_numeric`. -/
def rustIsNumeric (c : Char) : Bool :=
  c.isDigit

/-- ASCII fragment of Rust `char::is_alphabetic`. -/
def rustIsAlphabetic (c : Char) : Bool :=
  c.isAlpha

/-- ASCII fragment of Rust `char::is_alphanumeric`. -/
def rustIsAlphanumeric (c : Char) : Bool :=
  c.isAlphanum

/-- Embeds `src/src/error.rs`: `ParseError`. -/
inductive ParseError where
  | InvalidToken (msg : String)
  | UnexpectedToken (msg : String)
  | UnexpectedEndOfInput
  | InvalidNumber (msg : String)
deriving DecidableEq, Repr

/-- Embeds `src/src/token.rs`: `Token`. -/
inductive Token where
  | Number (n : ℚ)
  | Identifier (name : String) (idx : Nat)
  | Plus
  | Minus
  | Multiply
  | Divide
  | Power
  | LParen
  | RParen
  | Sqrt
  | Assign
deriving DecidableEq, Repr

/-- Embeds `src/src/ast.rs`: `ASTNode`. -/
inductive ASTNode where
  | Number (n : ℚ)
  | Identifier (name : String) (idx : Nat)
  | BinaryOp (op : Char) (left right : ASTNode)
  | UnaryOp (op : String) (operand : ASTNode)
deriving DecidableEq, Repr

/-- Digits of a numeral, most significant first, to a natural number. -/
def digitsToNat (cs : List Char) : Nat :=
  cs.foldl (fun acc c => 10 * acc + (c.toNat - '0'.toNat)) 0

/-- Models Rust `f64` `Display` (`format!("{}", n)`) on the finite-decimal
fragment: integers print bare, fractions print their (terminating) decimal
expansion.  `fuel` bounds the number of emitted fractional digits. -/
def fracDigits : ℚ → Nat → String
  | _, 0 => ""
  | f, fuel + 1 =>
    if f = 0 then ""
    else
      let f10 := f * 10
      let d : ℤ := Rat.floor f10
      toString d ++ fracDigits (f10 - (d : ℚ)) fuel

/-- Textual form of a number, as Rust's `{}` formatting of `f64` renders the
values reached by the claims (integers and terminating decimals). -/
def numToString (q : ℚ) : String :=
  if q.den = 1 then toString q.num
  else
    let sign := if q < 0 then "-" else ""
    let a : ℚ := |q|
    let ip : ℤ := Rat.floor a
    sign ++ toString ip ++ "." ++ fracDigits (a - (ip : ℚ)) 60

/-- Embeds `impl fmt::Display for Token` in `src/src/token.rs`. -/
def tokenToString : Token → String
  | .Number n => "NUMBER(" ++ numToString n ++ ")"
  | .Identifier _ idx => "id" ++ toString idx
  | .Plus => "PLUS"
  | .Minus => "MINUS"
  | .Multiply => "MUL"
  | .Divide => "DIV"
  | .Power => "POW"
  | .LParen => "LPAREN"
  | .RParen => "RPAREN"
  | .Sqrt => "SQRT"
  | .Assign => "ASSIGN"

/-- Embeds `impl fmt::Display for ASTNode` in `src/src/ast.rs`. -/
def astToString : ASTNode → String
  | .Number n => numToString n
  | .Identifier _ idx => "id" ++ toString idx
  | .BinaryOp op l r =>
      "(" ++ astToString l ++ " " ++ String.mk [op] ++ " " ++ astToString r ++ ")"
  | .UnaryOp op o => op ++ "(" ++ astToString o ++ ")"

/-- Embeds `ASTNode::has_variables`. -/
def hasVariables : ASTNode → Bool
  | .Identifier _ _ => true
  | .Number _ => false
  | .BinaryOp _ l r => hasVariables l || hasVariables r
  | .UnaryOp _ o => hasVariables o

/-- The binary-operator table of `ASTNode::evaluate`. -/
def evalOp (op : Char) (l r : ℚ) : ℚ :=
  if op = '+' then l + r
  else if op = '-' then l - r
  else if op = '*' then l * r
  else if op = '/' then l / r
  else if op = '^' then fpow l r
  else if op = '=' then r
  else 0

/-- Embeds `ASTNode::evaluate`. -/
def evaluate : ASTNode → ℚ
  | .Number n => n
  | .Identifier _ _ => 0
  | .BinaryOp op l r => evalOp op (evaluate l) (evaluate r)
  | .UnaryOp op o => if op = "sqrt" then fpow (evaluate o) (1/2) else evaluate o

/-- Both operands are literals with a negative base and a fractional exponent.
Rust tests `*base < 0.0 && exp.fract() != 0.0`; for a rational exponent a
nonzero fractional part is exactly `den ≠ 1`. -/
def negBaseFracExp : ASTNode → ASTNode → Bool
  | .Number base, .Number ex => decide (base < 0) && decide (ex.den ≠ 1)
  | _, _ => false

/-- The division-by-zero / negative-base warnings a single `BinaryOp` node
emits in `ASTNode::semantic_check_recursive`. -/
def nodeWarnings : ASTNode → List String
  | .BinaryOp op l r =>
      (if op = '/' ∧ r = ASTNode.Number 0 then
        ["Warning: Division by zero detected"]
      else []) ++
      (if op = '^' ∧ negBaseFracExp l r = true then
        ["Warning: Negative base with fractional exponent may produce complex numbers"]
      else [])
  | _ => []

/-- Embeds `ASTNode::semantic_check` (pre-order: a node's own warnings, then the left
subtree's, then the right subtree's).  Rust tests `exp.fract() != 0.0`; for a
rational exponent that is exactly `den ≠ 1`, inlined in `nodeWarnings`. -/
def semanticCheck : ASTNode → List String
  | .BinaryOp op l r =>
      nodeWarnings (.BinaryOp op l r) ++ semanticCheck l ++ semanticCheck r
  | .UnaryOp _ o => semanticCheck o
  | _ => []

/-- Operator spelling table of `ASTNode::to_three_address_code`. -/
def opStr (op : Char) : String :=
  if op = '=' then "="
  else if op = '+' then "+"
  else if op = '-' then "-"
  else if op = '*' then "*"
  else if op = '/' then "/"
  else if op = '^' then "^"
  else "?"

/-- Embeds `ASTNode::to_three_address_code`: returns the emitted lines, the result
operand, and the threaded temporary counter. -/
def toThreeAddressCode : ASTNode → Nat → List String × String × Nat
  | .Number n, k => ([], numToString n, k)
  | .Identifier _ idx, k => ([], "id" ++ toString idx, k)
  | .BinaryOp op l r, k =>
      let lres := toThreeAddressCode l k
      let rres := toThreeAddressCode r lres.2.2
      let k2 := rres.2.2
      let temp := "t" ++ toString k2
      if op = '=' then
        (lres.1 ++ rres.1 ++ [lres.2.1 ++ " = " ++ rres.2.1], lres.2.1, k2 + 1)
      else
        (lres.1 ++ rres.1 ++
          [temp ++ " = " ++ lres.2.1 ++ " " ++ opStr op ++ " " ++ rres.2.1],
         temp, k2 + 1)
  | .UnaryOp op o, k =>
      let ores := toThreeAddressCode o k
      let temp := "t" ++ toString ores.2.2
      (ores.1 ++ [temp ++ " = " ++ op ++ "(" ++ ores.2.1 ++ ")"], temp, ores.2.2 + 1)

/-- Constant folding of `ASTNode::optimize`: both children are number
literals.  Division by a literal zero, `=`, and unknown operators are left
unfolded (the Rust `match` returns the rebuilt node there). -/
def foldNums (op : Char) (a b : ℚ) : ASTNode :=
  if op = '+' then .Number (a + b)
  else if op = '-' then .Number (a - b)
  else if op = '*' then .Number (a * b)
  else if op = '/' then
    (if b ≠ 0 then .Number (a / b) else .BinaryOp op (.Number a) (.Number b))
  else if op = '^' then .Number (fpow a b)
  else .BinaryOp op (.Number a) (.Number b)

/-- Algebraic simplification of `ASTNode::optimize`, reached only when the
children are not both number literals; arms in the Rust `match` order. -/
def optimizeChain (op : Char) (L R : ASTNode) : ASTNode :=
  if op = '+' ∧ R = .Number 0 then L
  else if op = '+' ∧ L = .Number 0 then R
  else if op = '-' ∧ R = .Number 0 then L
  else if op = '*' ∧ (R = .Number 0 ∨ L = .Number 0) then .Number 0
  else if op = '*' ∧ R = .Number 1 then L
  else if op = '*' ∧ L = .Number 1 then R
  else if op = '/' ∧ R = .Number 1 then L
  else if op = '^' ∧ R = .Number 0 then .Number 1
  else if op = '^' ∧ R = .Number 1 then L
  else .BinaryOp op L R

/-- Dispatch between constant folding and algebraic simplification on the
already-optimized children. -/
def optimizeBin (op : Char) (L R : ASTNode) : ASTNode :=
  match L, R with
  | .Number a, .Number b => foldNums op a b
  | _, _ => optimizeChain op L R

/-- Unary arm of `ASTNode::optimize`: `sqrt` over a literal folds. -/
def optimizeUn (op : String) (O : ASTNode) : ASTNode :=
  match O with
  | .Number n => if op = "sqrt" then .Number (fpow n (1/2)) else .UnaryOp op (.Number n)
  | _ => .UnaryOp op O

/-- Embeds `ASTNode::optimize`. -/
def optimize : ASTNode → ASTNode
  | .Number n => .Number n
  | .Identifier s i => .Identifier s i
  | .BinaryOp op l r => optimizeBin op (optimize l) (optimize r)
  | .UnaryOp op o => optimizeUn op (optimize o)

/-- A division by a literal zero that `optimize` deliberately leaves unfolded
occurs somewhere in the tree (the claims' stated exception). -/
def divUnfolded : ASTNode → Bool
  | .BinaryOp op l r =>
      divUnfolded l || divUnfolded r ||
      (decide (op = '/') &&
        (match optimize l, optimize r with
         | .Number _, .Number b => decide (b = 0)
         | _, _ => false))
  | .UnaryOp _ o => divUnfolded o
  | _ => false

/-- Every `Number` literal in the tree is nonnegative. -/
def litsNonneg : ASTNode → Bool
  | .Number n => decide (0 ≤ n)
  | .Identifier _ _ => true
  | .BinaryOp _ l r => litsNonneg l && litsNonneg r
  | .UnaryOp _ o => litsNonneg o

/-- The tree contains a `UnaryOp` node. -/
def hasUnaryOp : ASTNode → Bool
  | .UnaryOp _ _ => true
  | .BinaryOp _ l r => hasUnaryOp l || hasUnaryOp r
  | _ => false

/-- Embeds `src/src/lexer.rs`: the lexer's mutable state — the identifier map (an
insertion-ordered association list standing for the `HashMap`) and `next_id`. -/
structure LexState where
  table : List (String × Nat)
  nextId : Nat
deriving DecidableEq, Repr

/-- First-match association-list lookup. -/
def lookupA {α : Type} : List (String × α) → String → Option α
  | [], _ => none
  | (k, v) :: rest, n => if k = n then some v else lookupA rest n

/-- Embeds `Lexer::get_identifier_index`: intern a name, appending a fresh entry with
index `next_id` on first occurrence. -/
def getIdentifierIndex (st : LexState) (name : String) : Nat × LexState :=
  match lookupA st.table name with
  | some i => (i, st)
  | none => (st.nextId, ⟨st.table ++ [(name, st.nextId)], st.nextId + 1⟩)

/-- A character `Lexer::read_number` consumes. -/
def numChar (c : Char) : Bool :=
  rustIsNumeric c || c = '.'

/-- A character `Lexer::read_identifier` consumes. -/
def identChar (c : Char) : Bool :=
  rustIsAlphanumeric c || c = '_'

/-- Embeds `str::parse::<f64>` restricted to the digit-and-dot strings
`Lexer::read_number` collects: at most one dot, at least one digit. -/
def parseRatNum (cs : List Char) : Option ℚ :=
  if cs.count '.' ≤ 1 ∧ cs.any rustIsNumeric then
    let intPart := cs.takeWhile (fun c => c ≠ '.')
    let fracPart := (cs.dropWhile (fun c => c ≠ '.')).drop 1
    some ((digitsToNat intPart : ℚ) + (digitsToNat fracPart : ℚ) / ((10 : ℚ) ^ fracPart.length))
  else none

/-- The single-character operator arms of the `match` in `Lexer::next_token`. -/
def opToken (c : Char) : Option Token :=
  if c = '+' then some .Plus
  else if c = '-' then some .Minus
  else if c = '*' then some .Multiply
  else if c = '/' then some .Divide
  else if c = '^' then some .Power
  else if c = '(' then some .LParen
  else if c = ')' then some .RParen
  else if c = '=' then some .Assign
  else none

/-- Embeds `Lexer::next_token`: skip whitespace, then produce one token (consuming
its characters) or `none` at end of input. -/
def nextToken (cs : List Char) (st : LexState) :
    Except ParseError (Option (Token × List Char × LexState)) :=
  match cs.dropWhile rustIsWhitespace with
  | [] => .ok none
  | c :: rest =>
    match opToken c with
    | some tk => .ok (some (tk, rest, st))
    | none =>
      if rustIsNumeric c then
        let numChars := (c :: rest).takeWhile numChar
        match parseRatNum numChars with
        | some q => .ok (some (.Number q, (c :: rest).dropWhile numChar, st))
        | none => .error (.InvalidNumber (String.mk numChars))
      else if rustIsAlphabetic c || c = '_' then
        let idChars := (c :: rest).takeWhile identChar
        let name := String.mk idChars
        let remaining := (c :: rest).dropWhile identChar
        if name.toLower = "sqrt" then .ok (some (.Sqrt, remaining, st))
        else
          let p := getIdentifierIndex st name
          .ok (some (.Identifier name p.1, remaining, p.2))
      else .error (.InvalidToken (String.mk [c]))

/-- Embeds `Lexer::tokenize`, fuel-indexed: each produced token consumes at least one
character, so `cs.length + 1` fuel always suffices. -/
def tokenizeAux : Nat → List Char → LexState → Except ParseError (List Token × LexState)
  | 0, _, _ => .error .UnexpectedEndOfInput
  | fuel + 1, cs, st =>
    match nextToken cs st with
    | .error e => .error e
    | .ok none => .ok ([], st)
    | .ok (some (t, cs', st')) =>
      match tokenizeAux fuel cs' st' with
      | .error e => .error e
      | .ok (toks, st'') => .ok (t :: toks, st'')

/-- Embeds `Lexer::tokenize` run from a fresh lexer (`Lexer::new`). -/
def Lexer.tokenize (cs : List Char) : Except ParseError (List Token × LexState) :=
  tokenizeAux (cs.length + 1) cs ⟨[], 1⟩

/-- Embeds `Lexer::into_identifier_table`: the map's pairs sorted by index.  The
embedding's map is an insertion-ordered list whose indices ascend (the C8
invariant), so the sort is the identity. -/
def intoIdentifierTable (st : LexState) : List (String × Nat) :=
  st.table

/-!
`src/src/parser.rs`: recursive-descent parser.  Each function carries a fuel
argument decremented on entry; every call chain from `parse_assignment` down
to `parse_primary` consumes a token before recursing deeper, so
`8 * tokens.length + 8` fuel always suffices (used by `Parser.parse`).
Results pair the parsed node with the cursor position after it.
-/

mutual

/-- Embeds `Parser::parse_assignment` (right-recursive, lowest precedence). -/
def parseAssignment : Nat → List Token → Nat → Except ParseError (ASTNode × Nat)
  | 0, _, _ => .error .UnexpectedEndOfInput
  | fuel + 1, toks, pos =>
    match parseExpr fuel toks pos with
    | .error e => .error e
    | .ok (left, p1) =>
      match toks.get? p1 with
      | some .Assign =>
        match parseAssignment fuel toks (p1 + 1) with
        | .error e => .error e
        | .ok (right, p2) => .ok (.BinaryOp '=' left right, p2)
      | _ => .ok (left, p1)
termination_by structural fuel => fuel

/-- Embeds `Parser::parse_expr`. -/
def parseExpr : Nat → List Token → Nat → Except ParseError (ASTNode × Nat)
  | 0, _, _ => .error .UnexpectedEndOfInput
  | fuel + 1, toks, pos => parseAddSub fuel toks pos
termination_by structural fuel => fuel

/-- Embeds `Parser::parse_add_sub` (left-associative loop). -/
def parseAddSub : Nat → List Token → Nat → Except ParseError (ASTNode × Nat)
  | 0, _, _ => .error .UnexpectedEndOfInput
  | fuel + 1, toks, pos =>
    match parseMulDiv fuel toks pos with
    | .error e => .error e
    | .ok (left, p1) => parseAddSubLoop fuel toks p1 left
termination_by structural fuel => fuel

/-- The `while` loop of `Parser::parse_add_sub`. -/
def parseAddSubLoop : Nat → List Token → Nat → ASTNode → Except ParseError (ASTNode × Nat)
  | 0, _, _, _ => .error .UnexpectedEndOfInput
  | fuel + 1, toks, pos, left =>
    match toks.get? pos with
    | some .Plus =>
      match parseMulDiv fuel toks (pos + 1) with
      | .error e => .error e
      | .ok (right, p2) => parseAddSubLoop fuel toks p2 (.BinaryOp '+' left right)
    | some .Minus =>
      match parseMulDiv fuel toks (pos + 1) with
      | .error e => .error e
      | .ok (right, p2) => parseAddSubLoop fuel toks p2 (.BinaryOp '-' left right)
    | _ => .ok (left, pos)
termination_by structural fuel => fuel

/-- Embeds `Parser::parse_mul_div` (left-associative loop). -/
def parseMulDiv : Nat → List Token → Nat → Except ParseError (ASTNode × Nat)
  | 0, _, _ => .error .UnexpectedEndOfInput
  | fuel + 1, toks, pos =>
    match parsePower fuel toks pos with
    | .error e => .error e
    | .ok (left, p1) => parseMulDivLoop fuel toks p1 left
termination_by structural fuel => fuel

/-- The `while` loop of `Parser::parse_mul_div`. -/
def parseMulDivLoop : Nat → List Token → Nat → ASTNode → Except ParseError (ASTNode × Nat)
  | 0, _, _, _ => .error .UnexpectedEndOfInput
  | fuel + 1, toks, pos, left =>
    match toks.get? pos with
    | some .Multiply =>
      match parsePower fuel toks (pos + 1) with
      | .error e => .error e
      | .ok (right, p2) => parseMulDivLoop fuel toks p2 (.BinaryOp '*' left right)
    | some .Divide =>
      match parsePower fuel toks (pos + 1) with
      | .error e => .error e
      | .ok (right, p2) => parseMulDivLoop fuel toks p2 (.BinaryOp '/' left right)
    | _ => .ok (left, pos)
termination_by structural fuel => fuel

/-- Embeds `Parser::parse_power` (right-recursive). -/
def parsePower : Nat → List Token → Nat → Except ParseError (ASTNode × Nat)
  | 0, _, _ => .error .UnexpectedEndOfInput
  | fuel + 1, toks, pos =>
    match parseUnary fuel toks pos with
    | .error e => .error e
    | .ok (left, p1) =>
      match toks.get? p1 with
      | some .Power =>
        match parsePower fuel toks (p1 + 1) with
        | .error e => .error e
        | .ok (right, p2) => .ok (.BinaryOp '^' left right, p2)
      | _ => .ok (left, p1)
termination_by structural fuel => fuel

/-- Embeds `Parser::parse_unary`: `sqrt` binds one primary and desugars to `x ^ 0.5`
(the Rust comment: "Transform sqrt(x) into x^0.5"). -/
def parseUnary : Nat → List Token → Nat → Except ParseError (ASTNode × Nat)
  | 0, _, _ => .error .UnexpectedEndOfInput
  | fuel + 1, toks, pos =>
    match toks.get? pos with
    | some .Sqrt =>
      match parsePrimary fuel toks (pos + 1) with
      | .error e => .error e
      | .ok (operand, p2) => .ok (.BinaryOp '^' operand (.Number (1/2)), p2)
    | _ => parsePrimary fuel toks pos
termination_by structural fuel => fuel

/-- Embeds `Parser::parse_primary`: number, identifier, or parenthesized expression;
a missing `)` is tolerated silently. -/
def parsePrimary : Nat → List Token → Nat → Except ParseError (ASTNode × Nat)
  | 0, _, _ => .error .UnexpectedEndOfInput
  | fuel + 1, toks, pos =>
    match toks.get? pos with
    | none => .error .UnexpectedEndOfInput
    | some (.Number n) => .ok (.Number n, pos + 1)
    | some (.Identifier name idx) => .ok (.Identifier name idx, pos + 1)
    | some .LParen =>
      match parseExpr fuel toks (pos + 1) with
      | .error e => .error e
      | .ok (expr, p2) =>
        match toks.get? p2 with
        | some .RParen => .ok (expr, p2 + 1)
        | _ => .ok (expr, p2)
    | some t => .error (.UnexpectedToken (tokenToString t))
termination_by structural fuel => fuel
end

/-- Fuel that always suffices for the fuel-indexed parser. -/
def parserFuel (toks : List Token) : Nat :=
  8 * toks.length + 8

/-- Embeds `Parser::parse`: the single entry point (`parse_assignment` from cursor
0); the final cursor position is internal state Rust discards. -/
def Parser.parse (toks : List Token) : Except ParseError ASTNode :=
  match parseAssignment (parserFuel toks) toks 0 with
  | .error e => .error e
  | .ok (ast, _) => .ok ast

/-!
`ParseResult::peephole_optimize` (`src/src/parser.rs`): three textual passes
over the generated TAC.
-/

/-- Rust `str::split_whitespace`. -/
def splitWs (s : String) : List String :=
  (s.split (fun c => rustIsWhitespace c)).filter (fun t => t ≠ "")

/-- Rust `trim_end_matches(|c| !c.is_alphanumeric())`. -/
def trimEndNonAlnum (s : String) : String :=
  String.mk ((s.data.reverse.dropWhile (fun c => !rustIsAlphanumeric c)).reverse)

/-- A temporary name as the peephole pass recognizes it:
`starts_with('t') && chars().skip(1).all(is_numeric)`. -/
def isTempName (s : String) : Bool :=
  s.startsWith "t" && (s.data.drop 1).all rustIsNumeric

/-- Increment a temporary's usage count (`*entry(..).or_insert(0) += 1`). -/
def bumpCount (m : List (String × Nat)) (k : String) : List (String × Nat) :=
  (k, (lookupA m k).getD 0 + 1) :: m

/-- First pass of `peephole_optimize` applied to one line: record a temp
definition, and count temp usages on the right-hand side. -/
def pass1Line (acc : List (String × String) × List (String × Nat)) (line : String) :
    List (String × String) × List (String × Nat) :=
  let parts := splitWs line
  if 3 ≤ parts.length ∧ parts.getD 1 "" = "=" then
    let lhs := parts.getD 0 ""
    let rhs := String.intercalate " " (parts.drop 2)
    let defs := if isTempName lhs then (lhs, rhs) :: acc.1 else acc.1
    let counts := (parts.drop 2).foldl
      (fun m p =>
        let clean := trimEndNonAlnum p
        if isTempName clean then bumpCount m clean else m)
      acc.2
    (defs, counts)
  else acc

/-- First pass of `peephole_optimize`: temp definitions and usage counts. -/
def pass1 (code : List String) : List (String × String) × List (String × Nat) :=
  code.foldl pass1Line ([], [])

/-- The adjacent-pair condition of the second pass: line `i` defines a temp,
line `i+1`'s whole right-hand side is exactly that temp, and the temp's total
usage count is exactly 1. -/
def adjCond (counts : List (String × Nat)) (curr next : String) : Prop :=
  let cp := splitWs curr
  let np := splitWs next
  3 ≤ cp.length ∧ cp.getD 1 "" = "=" ∧ 3 ≤ np.length ∧ np.getD 1 "" = "=" ∧
  isTempName (cp.getD 0 "") = true ∧
  String.intercalate " " (np.drop 2) = cp.getD 0 "" ∧
  (lookupA counts (cp.getD 0 "")).getD 0 = 1

instance (counts : List (String × Nat)) (curr next : String) :
    Decidable (adjCond counts curr next) := by
  unfold adjCond; infer_instance

/-- Second pass of `peephole_optimize`: the indices marked for removal. -/
def pass2Skips (code : List String) (counts : List (String × Nat)) : List Nat :=
  (List.range (code.length - 1)).filter
    (fun i => decide (adjCond counts (code.getD i "") (code.getD (i + 1) "")))

/-- Third pass of `peephole_optimize`, applied to one kept line: substitute a
single-use temp's recorded definition for a bare temp right-hand side. -/
def substLine (defs : List (String × String)) (counts : List (String × Nat))
    (line : String) : String :=
  let parts := splitWs line
  if 3 ≤ parts.length ∧ parts.getD 1 "" = "=" then
    let lhs := parts.getD 0 ""
    let rhs := String.intercalate " " (parts.drop 2)
    if rhs.startsWith "t" = true ∧ rhs.data.all rustIsAlphanumeric = true ∧
        (lookupA counts rhs).getD 0 = 1 then
      match lookupA defs rhs with
      | some d => lhs ++ " = " ++ d
      | none => line
    else line
  else line

/-- Third pass of `peephole_optimize`: the indexed loop with `continue` that
builds the final sequence. -/
def thirdPass (skips : List Nat) (defs : List (String × String))
    (counts : List (String × Nat)) : Nat → List String → List String
  | _, [] => []
  | i, line :: rest =>
    if i ∈ skips then thirdPass skips defs counts (i + 1) rest
    else substLine defs counts line :: thirdPass skips defs counts (i + 1) rest

/-- Embeds `ParseResult::peephole_optimize`. -/
def peepholeOptimize (code : List String) : List String :=
  let dc := pass1 code
  let skips := pass2Skips code dc.2
  thirdPass skips dc.1 dc.2 0 code

/-- Embeds `src/src/parser.rs`: `ParseResult`, the aggregate output of one
compilation. -/
structure ParseResult where
  tokens : List Token
  ast : ASTNode
  identifierTable : List (String × Nat)
  semanticWarnings : List String
  threeAddressCode : List String
  optimizedAst : ASTNode
  optimizedThreeAddressCode : List String
deriving DecidableEq, Repr

/-- Embeds `ParseResult::from_input`: the whole pipeline for one input string. -/
def ParseResult.fromInput (input : String) : Except ParseError ParseResult :=
  match Lexer.tokenize input.data with
  | .error e => .error e
  | .ok (tokens, st) =>
    if tokens.isEmpty then .error .UnexpectedEndOfInput
    else
      let identifierTable := intoIdentifierTable st
      match Parser.parse tokens with
      | .error e => .error e
      | .ok ast =>
        let semanticWarnings := semanticCheck ast
        let threeAddressCode := (toThreeAddressCode ast 1).1
        let optimizedAst := optimize ast
        let optimizedThreeAddressCode :=
          peepholeOptimize (toThreeAddressCode optimizedAst 1).1
        .ok ⟨tokens, ast, identifierTable, semanticWarnings, threeAddressCode,
             optimizedAst, optimizedThreeAddressCode⟩

/-!
Theorems.  Helper lemmas are shared; each claim has exactly one named theorem
(plus a witness or counterexample where required).
-/

theorem evaluate_foldNums (op : Char) (a b : ℚ) :
    evaluate (foldNums op a b) = evalOp op a b := by
  unfold foldNums evalOp
  split_ifs <;> simp_all [evaluate, evalOp]

theorem evaluate_optimizeChain (op : Char) (L R : ASTNode) :
    evaluate (optimizeChain op L R) = evalOp op (evaluate L) (evaluate R) := by
  unfold optimizeChain
  split_ifs with h1 h2 h3 h4 h5 h6 h7 h8 h9
  · obtain ⟨ho, hR⟩ := h1; subst ho; subst hR; simp [evalOp, evaluate]
  · obtain ⟨ho, hL⟩ := h2; subst ho; subst hL; simp [evalOp, evaluate]
  · obtain ⟨ho, hR⟩ := h3; subst ho; subst hR; simp [evalOp, evaluate]
  · obtain ⟨ho, hLR⟩ := h4; subst ho
    rcases hLR with hR | hL
    · subst hR; simp [evalOp, evaluate]
    · subst hL; simp [evalOp, evaluate]
  · obtain ⟨ho, hR⟩ := h5; subst ho; subst hR; simp [evalOp, evaluate]
  · obtain ⟨ho, hL⟩ := h6; subst ho; subst hL; simp [evalOp, evaluate]
  · obtain ⟨ho, hR⟩ := h7; subst ho; subst hR; simp [evalOp, evaluate]
  · obtain ⟨ho, hR⟩ := h8; subst ho; subst hR; simp [evalOp, evaluate, fpow_zero]
  · obtain ⟨ho, hR⟩ := h9; subst ho; subst hR; simp [evalOp, evaluate, fpow_one]
  · simp [evaluate]

theorem evaluate_optimizeBin (op : Char) (L R : ASTNode) :
    evaluate (optimizeBin op L R) = evalOp op (evaluate L) (evaluate R) := by
  cases L <;> cases R <;>
    simp only [optimizeBin] <;>
    first
      | exact evaluate_foldNums _ _ _
      | exact evaluate_optimizeChain _ _ _

theorem evaluate_optimizeUn (op : String) (O : ASTNode) :
    evaluate (optimizeUn op O) = evaluate (ASTNode.UnaryOp op O) := by
  cases O <;> simp only [optimizeUn, evaluate]
  split_ifs <;> simp_all [evaluate]

theorem evaluate_optimize (t : ASTNode) : evaluate (optimize t) = evaluate t := by
  induction t with
  | Number n => rfl
  | Identifier s i => rfl
  | BinaryOp op l r ihl ihr =>
      simp only [optimize, evaluate, evaluate_optimizeBin, ihl, ihr]
  | UnaryOp op o iho =>
      simp only [optimize, evaluate_optimizeUn, evaluate, iho]

/-- Claim C1: for every AST with no Identifier nodes, and in which no division
by a literal zero is left unfolded by the optimizer, evaluating the optimized
tree gives the same value as evaluating the original tree. -/
theorem optimize_preserves_evaluate (t : ASTNode)
    (_hvars : hasVariables t = false) (_hdiv : divUnfolded t = false) :
    evaluate (optimize t) = evaluate t :=
  evaluate_optimize t

/-- Witness for C1 at the concrete tree `(1 + 2) * 3`. -/
theorem optimize_preserves_evaluate_witness :
    hasVariables (ASTNode.BinaryOp '*'
        (ASTNode.BinaryOp '+' (ASTNode.Number 1) (ASTNode.Number 2))
        (ASTNode.Number 3)) = false ∧
    divUnfolded (ASTNode.BinaryOp '*'
        (ASTNode.BinaryOp '+' (ASTNode.Number 1) (ASTNode.Number 2))
        (ASTNode.Number 3)) = false ∧
    evaluate (optimize (ASTNode.BinaryOp '*'
        (ASTNode.BinaryOp '+' (ASTNode.Number 1) (ASTNode.Number 2))
        (ASTNode.Number 3))) =
      evaluate (ASTNode.BinaryOp '*'
        (ASTNode.BinaryOp '+' (ASTNode.Number 1) (ASTNode.Number 2))
        (ASTNode.Number 3)) :=
  ⟨by decide, by decide,
    optimize_preserves_evaluate _ (by decide) (by decide)⟩

theorem foldNums_result (op : Char) (a b : ℚ) :
    (∃ n, foldNums op a b = .Number n) ∨
      foldNums op a b = .BinaryOp op (.Number a) (.Number b) := by
  unfold foldNums
  split_ifs <;> simp

theorem optimize_foldNums_fix (op : Char) (a b : ℚ) :
    optimize (foldNums op a b) = foldNums op a b := by
  rcases foldNums_result op a b with ⟨n, hn⟩ | hb
  · rw [hn]; rfl
  · rw [hb]
    simp only [optimize]
    show optimizeBin op (.Number a) (.Number b) = _
    show foldNums op a b = _
    exact hb

theorem optimizeChain_result (op : Char) (L R : ASTNode) :
    optimizeChain op L R = L ∨ optimizeChain op L R = R ∨
      optimizeChain op L R = .Number 0 ∨ optimizeChain op L R = .Number 1 ∨
      optimizeChain op L R = .BinaryOp op L R := by
  unfold optimizeChain
  split_ifs <;> simp

theorem optimize_optimizeChain_fix (op : Char) (L R : ASTNode)
    (hL : optimize L = L) (hR : optimize R = R)
    (hnb : optimizeBin op L R = optimizeChain op L R) :
    optimize (optimizeChain op L R) = optimizeChain op L R := by
  rcases optimizeChain_result op L R with h | h | h | h | h <;> rw [h]
  · exact hL
  · exact hR
  · rfl
  · rfl
  · simp only [optimize]
    rw [hL, hR, hnb, h]

theorem optimize_optimizeBin_fix (op : Char) (L R : ASTNode)
    (hL : optimize L = L) (hR : optimize R = R) :
    optimize (optimizeBin op L R) = optimizeBin op L R := by
  cases L <;> cases R <;>
    first
      | exact optimize_foldNums_fix op _ _
      | (simp only [optimizeBin]
         exact optimize_optimizeChain_fix op _ _ hL hR rfl)

theorem optimize_optimizeUn_fix (op : String) (O : ASTNode)
    (hO : optimize O = O) :
    optimize (optimizeUn op O) = optimizeUn op O := by
  cases O with
  | Number n =>
      simp only [optimizeUn]
      split_ifs with h
      · rfl
      · simp only [optimize, optimizeUn]
        rw [if_neg h]
  | Identifier s i => rfl
  | BinaryOp op2 l r =>
      simp only [optimizeUn]
      have hstep : optimize (ASTNode.UnaryOp op (ASTNode.BinaryOp op2 l r)) =
          optimizeUn op (optimize (ASTNode.BinaryOp op2 l r)) := rfl
      rw [hstep, hO]
      simp only [optimizeUn]
  | UnaryOp op2 o =>
      simp only [optimizeUn]
      have hstep : optimize (ASTNode.UnaryOp op (ASTNode.UnaryOp op2 o)) =
          optimizeUn op (optimize (ASTNode.UnaryOp op2 o)) := rfl
      rw [hstep, hO]
      simp only [optimizeUn]

theorem optimize_fix (t : ASTNode) : optimize (optimize t) = optimize t := by
  induction t with
  | Number n => rfl
  | Identifier s i => rfl
  | BinaryOp op l r ihl ihr =>
      simp only [optimize]
      exact optimize_optimizeBin_fix op _ _ ihl ihr
  | UnaryOp op o iho =>
      simp only [optimize]
      exact optimize_optimizeUn_fix op _ iho

/-- Claim C4: optimization is idempotent up to the printed form — the textual
form of `optimize (optimize t)` equals that of `optimize t` (indeed the trees
are structurally equal). -/
theorem optimize_idempotent_toString (t : ASTNode) :
    astToString (optimize (optimize t)) = astToString (optimize t) := by
  rw [optimize_fix]

/-- Claim C2 counterexample: `sqrt 2+3` parses as `(2 ^ 0.5) + 3` — `sqrt`
does bind only the immediately following primary, but the parser emits a
`BinaryOp '^'` node (desugaring), never a `UnaryOp` node. -/
theorem sqrt_no_unary_node_counterexample :
    Parser.parse [Token.Sqrt, Token.Number 2, Token.Plus, Token.Number 3] =
      .ok (ASTNode.BinaryOp '+'
        (ASTNode.BinaryOp '^' (ASTNode.Number 2) (ASTNode.Number (1/2)))
        (ASTNode.Number 3)) ∧
    hasUnaryOp (ASTNode.BinaryOp '+'
        (ASTNode.BinaryOp '^' (ASTNode.Number 2) (ASTNode.Number (1/2)))
        (ASTNode.Number 3)) = false :=
  ⟨rfl, rfl⟩

/-- Claim C2 amended: parsing `sqrt E` applies `sqrt` to the single
immediately-following primary (not a full expression), desugaring it to the
power node `E ^ 0.5` rather than a unary-operator node. -/
theorem sqrt_binds_single_primary (fuel pos p : Nat) (toks : List Token)
    (e : ASTNode)
    (hsq : toks.get? pos = some Token.Sqrt)
    (hp : parsePrimary fuel toks (pos + 1) = .ok (e, p)) :
    parseUnary (fuel + 1) toks pos =
      .ok (ASTNode.BinaryOp '^' e (ASTNode.Number (1/2)), p) := by
  simp only [parseUnary, hsq, hp]

/-- Witness for the amended C2 at `sqrt 2 + 3`. -/
theorem sqrt_binds_single_primary_witness :
    parseUnary 40 [Token.Sqrt, Token.Number 2, Token.Plus, Token.Number 3] 0 =
      .ok (ASTNode.BinaryOp '^' (ASTNode.Number 2) (ASTNode.Number (1/2)), 2) :=
  sqrt_binds_single_primary 39 0 2
    [Token.Sqrt, Token.Number 2, Token.Plus, Token.Number 3]
    (ASTNode.Number 2) rfl rfl

/-- Claim C3 counterexample: for input `"5 + 3 * 0"` the optimized
three-address code has zero lines, not one — a lone literal emits no TAC
lines (the `5` is only the result operand, which `from_input` discards). -/
theorem optimized_tac_not_single_line_counterexample :
    (ParseResult.fromInput "5 + 3 * 0").map
        (fun r => r.optimizedThreeAddressCode.length) = .ok 0 :=
  rfl

/-- Claim C3 amended: for input `"5 + 3 * 0"` the optimized AST's textual
form equals `"5"`, and the optimized three-address code is empty, because a
lone literal generates no TAC lines. -/
theorem optimized_tac_for_five_amended :
    (ParseResult.fromInput "5 + 3 * 0").map
        (fun r => (astToString r.optimizedAst, r.optimizedThreeAddressCode)) =
      .ok ("5", ([] : List String)) := by
  with_unfolding_all rfl

/-- Claim C6 counterexample: `parse` succeeds on `[1, 2]` with the cursor at
position 1 of 2 — the trailing token is left unconsumed — and the whole
pipeline happily compiles `"1 2"` to the AST `1`, ignoring the second token. -/
theorem parse_ignores_trailing_tokens_counterexample :
    parseAssignment 24 [Token.Number 1, Token.Number 2] 0 =
      .ok (ASTNode.Number 1, 1) ∧
    (ParseResult.fromInput "1 2").map (fun r => (r.tokens.length, r.ast)) =
      .ok (2, ASTNode.Number 1) :=
  ⟨rfl, by with_unfolding_all rfl⟩

/-- Claim C7: after a `(` and a parsed inner expression, a missing `)` is
tolerated silently — if the next token is not `)`, `parse_primary` returns
the inner expression without consuming anything and without an error. -/
theorem missing_rparen_tolerated (fuel : Nat) (toks : List Token) (pos : Nat)
    (e : ASTNode) (p : Nat)
    (hlp : toks.get? pos = some Token.LParen)
    (hexpr : parseExpr fuel toks (pos + 1) = .ok (e, p))
    (hnr : toks.get? p ≠ some Token.RParen) :
    parsePrimary (fuel + 1) toks pos = .ok (e, p) := by
  simp only [parsePrimary, hlp, hexpr]

/-- Witness for C7 at the unterminated input `( 1`. -/
theorem missing_rparen_tolerated_witness :
    parsePrimary 10 [Token.LParen, Token.Number 1] 0 =
      .ok (ASTNode.Number 1, 2) :=
  missing_rparen_tolerated 9 [Token.LParen, Token.Number 1] 0
    (ASTNode.Number 1) 2 rfl rfl (by decide)

/-- Claim C5 counterexample: with the single-use temporary `t1` defined at
line 0 but copied only at the non-adjacent line 2, the substitution happens
(`y = a + b`) yet the defining line `t1 = a + b` is NOT dropped from the
output — dropping happens only through the adjacent-pair pass. -/
theorem peephole_keeps_nonadjacent_definition_counterexample :
    peepholeOptimize ["t1 = a + b", "x = c", "y = t1"] =
      ["t1 = a + b", "x = c", "y = a + b"] := by
  with_unfolding_all rfl

theorem thirdPass_eq_filter_map (skips : List Nat) (defs : List (String × String))
    (counts : List (String × Nat)) :
    ∀ (lines : List String) (n : Nat),
      thirdPass skips defs counts n lines =
        ((lines.enumFrom n).filter (fun p => decide (p.1 ∉ skips))).map
          (fun p => substLine defs counts p.2) := by
  intro lines
  induction lines with
  | nil => intro n; rfl
  | cons line rest ih =>
      intro n
      by_cases h : n ∈ skips <;>
        simp [thirdPass, h, ih (n + 1)]

/-- Claim C5 amended: skipping aside, every remaining line passes through
`substLine` — a line whose right-hand side is a bare single temporary with a
recorded definition and usage count exactly 1 gets the definition substituted,
and every other line passes through unchanged; a defining line is dropped
(skipped) only through the second pass's adjacency rule: its very next line's
whole right-hand side is that temporary and the usage count is exactly 1. -/
theorem peephole_substitution_amended (code : List String) :
    peepholeOptimize code =
      ((code.enum.filter
          (fun p => decide (p.1 ∉ pass2Skips code (pass1 code).2))).map
        (fun p => substLine (pass1 code).1 (pass1 code).2 p.2)) ∧
    ∀ i ∈ pass2Skips code (pass1 code).2,
      i + 1 < code.length ∧
      adjCond (pass1 code).2 (code.getD i "") (code.getD (i + 1) "") := by
  constructor
  · exact thirdPass_eq_filter_map _ _ _ code 0
  · intro i hi
    unfold pass2Skips at hi
    rw [List.mem_filter] at hi
    obtain ⟨hrange, hcond⟩ := hi
    rw [List.mem_range] at hrange
    exact ⟨by omega, of_decide_eq_true hcond⟩

/-- Witness for the amended C5 at the adjacent pair `t1 = 5 + 3; x = t1`. -/
theorem peephole_substitution_amended_witness :
    (peepholeOptimize ["t1 = 5 + 3", "x = t1"] =
      ((["t1 = 5 + 3", "x = t1"].enum.filter
          (fun p => decide (p.1 ∉ pass2Skips ["t1 = 5 + 3", "x = t1"]
            (pass1 ["t1 = 5 + 3", "x = t1"]).2))).map
        (fun p => substLine (pass1 ["t1 = 5 + 3", "x = t1"]).1
          (pass1 ["t1 = 5 + 3", "x = t1"]).2 p.2))) ∧
    (0 + 1 < 2 ∧
      adjCond (pass1 ["t1 = 5 + 3", "x = t1"]).2 "t1 = 5 + 3" "x = t1") :=
  ⟨(peephole_substitution_amended ["t1 = 5 + 3", "x = t1"]).1,
    (peephole_substitution_amended ["t1 = 5 + 3", "x = t1"]).2 0 (by
      have h : pass2Skips ["t1 = 5 + 3", "x = t1"]
          (pass1 ["t1 = 5 + 3", "x = t1"]).2 = [0] := by
        with_unfolding_all rfl
      rw [h]
      exact List.mem_singleton.mpr rfl)⟩

/-- Claim C6 amended: every parser function moves the single cursor
monotonically left-to-right (the position never decreases, i.e. no
backtracking) — but a successful `parse` need not consume the entire token
sequence; trailing tokens that cannot extend the expression are left
unconsumed and silently ignored. -/
theorem parse_cursor_monotone : ∀ fuel : Nat,
    (∀ toks pos a p, parsePrimary fuel toks pos = .ok (a, p) → pos ≤ p) ∧
    (∀ toks pos a p, parseUnary fuel toks pos = .ok (a, p) → pos ≤ p) ∧
    (∀ toks pos a p, parsePower fuel toks pos = .ok (a, p) → pos ≤ p) ∧
    (∀ toks pos left a p, parseMulDivLoop fuel toks pos left = .ok (a, p) → pos ≤ p) ∧
    (∀ toks pos a p, parseMulDiv fuel toks pos = .ok (a, p) → pos ≤ p) ∧
    (∀ toks pos left a p, parseAddSubLoop fuel toks pos left = .ok (a, p) → pos ≤ p) ∧
    (∀ toks pos a p, parseAddSub fuel toks pos = .ok (a, p) → pos ≤ p) ∧
    (∀ toks pos a p, parseExpr fuel toks pos = .ok (a, p) → pos ≤ p) ∧
    (∀ toks pos a p, parseAssignment fuel toks pos = .ok (a, p) → pos ≤ p) := by
  intro fuel
  induction fuel with
  | zero =>
      refine ⟨?_, ?_, ?_, ?_, ?_, ?_, ?_, ?_, ?_⟩ <;>
        (intros
         simp_all [parsePrimary, parseUnary, parsePower, parseMulDivLoop,
           parseMulDiv, parseAddSubLoop, parseAddSub, parseExpr, parseAssignment])
  | succ n ih =>
      obtain ⟨ihPrim, ihUn, ihPow, ihMulL, ihMul, ihAddL, ihAdd, ihExpr, ihAsgn⟩ := ih
      have hPrim : ∀ toks pos a p, parsePrimary (n + 1) toks pos = .ok (a, p) → pos ≤ p := by
        intro toks pos a p h
        simp only [parsePrimary] at h
        split at h
        · exact absurd h (by simp)
        · obtain ⟨h1, h2⟩ := by simpa using h
          omega
        · obtain ⟨h1, h2⟩ := by simpa using h
          omega
        · split at h
          · exact absurd h (by simp)
          · rename_i expr p2 hE
            have hm := ihExpr _ _ _ _ hE
            split at h <;>
              (obtain ⟨h1, h2⟩ := by simpa using h
               omega)
        · exact absurd h (by simp)
      have hUn : ∀ toks pos a p, parseUnary (n + 1) toks pos = .ok (a, p) → pos ≤ p := by
        intro toks pos a p h
        simp only [parseUnary] at h
        split at h
        · split at h
          · exact absurd h (by simp)
          · rename_i o p2 hP
            have hm := ihPrim _ _ _ _ hP
            obtain ⟨h1, h2⟩ := by simpa using h
            omega
        · exact le_trans (Nat.le_refl pos) (ihPrim _ _ _ _ h)
      have hPow : ∀ toks pos a p, parsePower (n + 1) toks pos = .ok (a, p) → pos ≤ p := by
        intro toks pos a p h
        simp only [parsePower] at h
        split at h
        · exact absurd h (by simp)
        · rename_i left p1 hU
          have hm := ihUn _ _ _ _ hU
          split at h
          · split at h
            · exact absurd h (by simp)
            · rename_i right p2 hR
              have hm2 := ihPow _ _ _ _ hR
              obtain ⟨h1, h2⟩ := by simpa using h
              omega
          · obtain ⟨h1, h2⟩ := by simpa using h
            omega
      have hMulL : ∀ toks pos left a p,
          parseMulDivLoop (n + 1) toks pos left = .ok (a, p) → pos ≤ p := by
        intro toks pos left a p h
        simp only [parseMulDivLoop] at h
        split at h
        · split at h
          · exact absurd h (by simp)
          · rename_i right p2 hR
            have hm := ihPow _ _ _ _ hR
            have hm2 := ihMulL _ _ _ _ _ h
            omega
        · split at h
          · exact absurd h (by simp)
          · rename_i right p2 hR
            have hm := ihPow _ _ _ _ hR
            have hm2 := ihMulL _ _ _ _ _ h
            omega
        · obtain ⟨h1, h2⟩ := by simpa using h
          omega
      have hMul : ∀ toks pos a p, parseMulDiv (n + 1) toks pos = .ok (a, p) → pos ≤ p := by
        intro toks pos a p h
        simp only [parseMulDiv] at h
        split at h
        · exact absurd h (by simp)
        · rename_i left p1 hP
          have hm := ihPow _ _ _ _ hP
          have hm2 := ihMulL _ _ _ _ _ h
          omega
      have hAddL : ∀ toks pos left a p,
          parseAddSubLoop (n + 1) toks pos left = .ok (a, p) → pos ≤ p := by
        intro toks pos left a p h
        simp only [parseAddSubLoop] at h
        split at h
        · split at h
          · exact absurd h (by simp)
          · rename_i right p2 hR
            have hm := ihMul _ _ _ _ hR
            have hm2 := ihAddL _ _ _ _ _ h
            omega
        · split at h
          · exact absurd h (by simp)
          · rename_i right p2 hR
            have hm := ihMul _ _ _ _ hR
            have hm2 := ihAddL _ _ _ _ _ h
            omega
        · obtain ⟨h1, h2⟩ := by simpa using h
          omega
      have hAdd : ∀ toks pos a p, parseAddSub (n + 1) toks pos = .ok (a, p) → pos ≤ p := by
        intro toks pos a p h
        simp only [parseAddSub] at h
        split at h
        · exact absurd h (by simp)
        · rename_i left p1 hM
          have hm := ihMul _ _ _ _ hM
          have hm2 := ihAddL _ _ _ _ _ h
          omega
      have hExpr : ∀ toks pos a p, parseExpr (n + 1) toks pos = .ok (a, p) → pos ≤ p := by
        intro toks pos a p h
        simp only [parseExpr] at h
        exact ihAdd _ _ _ _ h
      have hAsgn : ∀ toks pos a p, parseAssignment (n + 1) toks pos = .ok (a, p) → pos ≤ p := by
        intro toks pos a p h
        simp only [parseAssignment] at h
        split at h
        · exact absurd h (by simp)
        · rename_i left p1 hE
          have hm := ihExpr _ _ _ _ hE
          split at h
          · split at h
            · exact absurd h (by simp)
            · rename_i right p2 hA
              have hm2 := ihAsgn _ _ _ _ hA
              obtain ⟨h1, h2⟩ := by simpa using h
              omega
          · obtain ⟨h1, h2⟩ := by simpa using h
            omega
      exact ⟨hPrim, hUn, hPow, hMulL, hMul, hAddL, hAdd, hExpr, hAsgn⟩

/-- Witness for the amended C6: on `[1, 2]` the cursor moves from 0 to 1. -/
theorem parse_cursor_monotone_witness :
    parseAssignment 24 [Token.Number 1, Token.Number 2] 0 =
      .ok (ASTNode.Number 1, 1) ∧ (0 : Nat) ≤ 1 :=
  ⟨rfl, (parse_cursor_monotone 24).2.2.2.2.2.2.2.2
    [Token.Number 1, Token.Number 2] 0 (ASTNode.Number 1) 1 rfl⟩

/-- Names of the identifier tokens, in token order. -/
def identNames (toks : List Token) : List String :=
  toks.filterMap (fun t => match t with | .Identifier n _ => some n | _ => none)

/-- Accumulate names in first-occurrence order onto an already-seen list. -/
def addNames (seen : List String) : List String → List String
  | [] => seen
  | n :: ns => addNames (if n ∈ seen then seen else seen ++ [n]) ns

theorem lookupA_append_some {α : Type} (t ext : List (String × α)) (n : String)
    (v : α) (h : lookupA t n = some v) : lookupA (t ++ ext) n = some v := by
  induction t with
  | nil => simp [lookupA] at h
  | cons q rest ih =>
      obtain ⟨k, w⟩ := q
      simp only [lookupA, List.cons_append] at h ⊢
      split_ifs at h ⊢ with hk
      · exact h
      · exact ih h

theorem lookupA_append_new {α : Type} (t : List (String × α)) (n : String)
    (v : α) (h : lookupA t n = none) : lookupA (t ++ [(n, v)]) n = some v := by
  induction t with
  | nil => simp [lookupA]
  | cons q rest ih =>
      obtain ⟨k, w⟩ := q
      simp only [lookupA, List.cons_append] at h ⊢
      split_ifs at h ⊢ with hk
      · exact ih h

theorem lookupA_mem {α : Type} (t : List (String × α)) (n : String) (v : α)
    (h : lookupA t n = some v) : (n, v) ∈ t := by
  induction t with
  | nil => simp [lookupA] at h
  | cons q rest ih =>
      obtain ⟨k, w⟩ := q
      simp only [lookupA] at h
      split_ifs at h with hk
      · obtain rfl := hk
        obtain rfl : w = v := by simpa using h
        simp
      · simp [ih h]

theorem lookupA_none_not_mem_fst {α : Type} (t : List (String × α)) (n : String)
    (h : lookupA t n = none) : n ∉ t.map Prod.fst := by
  induction t with
  | nil => simp
  | cons q rest ih =>
      obtain ⟨k, w⟩ := q
      simp only [lookupA] at h
      split_ifs at h with hk
      simp only [List.map_cons, List.mem_cons]
      push_neg
      exact ⟨fun hn => hk hn.symm, ih h⟩

theorem lookupA_some_mem_fst {α : Type} (t : List (String × α)) (n : String)
    (v : α) (h : lookupA t n = some v) : n ∈ t.map Prod.fst := by
  have := lookupA_mem t n v h
  exact List.mem_map.mpr ⟨(n, v), this, rfl⟩

/-- The lexer-state invariant: table indices are exactly `1..len` in order,
and `next_id` is one past the table length. -/
def LexInv (st : LexState) : Prop :=
  st.table.map Prod.snd = List.range' 1 st.table.length ∧
  st.nextId = st.table.length + 1

theorem getIdentifierIndex_spec (st : LexState) (name : String)
    (hwf : LexInv st) :
    LexInv (getIdentifierIndex st name).2 ∧
    (∃ ext, (getIdentifierIndex st name).2.table = st.table ++ ext ∧
      ∀ q ∈ ext, q.1 = name) ∧
    lookupA (getIdentifierIndex st name).2.table name =
      some (getIdentifierIndex st name).1 ∧
    (getIdentifierIndex st name).2.table.map Prod.fst =
      addNames (st.table.map Prod.fst) [name] := by
  obtain ⟨hsnd, hnext⟩ := hwf
  unfold getIdentifierIndex
  cases hl : lookupA st.table name with
  | some i =>
      refine ⟨⟨hsnd, hnext⟩, ⟨[], by simp⟩, hl, ?_⟩
      have hm : name ∈ st.table.map Prod.fst := lookupA_some_mem_fst _ _ _ hl
      simp [addNames, hm]
  | none =>
      refine ⟨⟨?_, ?_⟩, ⟨[(name, st.nextId)], rfl, by simp⟩, ?_, ?_⟩
      · simp only [List.map_append, hsnd, List.length_append, List.map_cons,
          List.map_nil, hnext, List.length_cons, List.length_nil]
        have h0 : st.table.length + (0 + 1) = st.table.length + 1 := by omega
        have h1 : 1 + 1 * st.table.length = st.table.length + 1 := by omega
        rw [h0, List.range'_concat, h1]
      · simp [hnext]
      · exact lookupA_append_new _ _ _ hl
      · have hm : name ∉ st.table.map Prod.fst := lookupA_none_not_mem_fst _ _ hl
        simp [addNames, hm]

theorem opToken_not_identifier (c : Char) (tk : Token) (h : opToken c = some tk) :
    ∀ n i, tk ≠ .Identifier n i := by
  unfold opToken at h
  split_ifs at h <;>
    (injection h with h2
     subst h2
     simp)

theorem nextToken_step (cs : List Char) (st : LexState) (t : Token)
    (cs' : List Char) (st' : LexState)
    (h : nextToken cs st = .ok (some (t, cs', st'))) (hwf : LexInv st) :
    LexInv st' ∧
    (∃ ext, st'.table = st.table ++ ext) ∧
    st'.table.map Prod.fst = addNames (st.table.map Prod.fst) (identNames [t]) ∧
    (∀ n i, t = .Identifier n i →
      lookupA st'.table n = some i ∧ n.toLower ≠ "sqrt") ∧
    (∀ q ∈ st'.table, q ∈ st.table ∨ q.1.toLower ≠ "sqrt") := by
  simp only [nextToken] at h
  split at h
  · exact absurd h (by simp)
  · rename_i c rest hdrop
    split at h
    · rename_i tk hop
      obtain ⟨rfl, rfl, rfl⟩ : t = tk ∧ cs' = rest ∧ st' = st := by
        simpa using h.symm
      refine ⟨hwf, ⟨[], by simp⟩, ?_, ?_, fun q hq => Or.inl hq⟩
      · have hni := opToken_not_identifier c _ hop
        cases t <;> simp [identNames, addNames]
        exact absurd rfl (hni _ _)
      · intro n i ht
        exact absurd ht (opToken_not_identifier c _ hop n i)
    · split at h
      · split at h
        · rename_i q hq
          obtain ⟨rfl, rfl, rfl⟩ :
              t = Token.Number q ∧
              cs' = (c :: rest).dropWhile numChar ∧ st' = st := by
            simpa using h.symm
          exact ⟨hwf, ⟨[], by simp⟩, by simp [identNames, addNames],
            fun n i ht => by simp at ht, fun q' hq' => Or.inl hq'⟩
        · exact absurd h (by simp)
      · split at h
        · split at h
          · obtain ⟨rfl, rfl, rfl⟩ :
                t = Token.Sqrt ∧
                cs' = (c :: rest).dropWhile identChar ∧ st' = st := by
              simpa using h.symm
            exact ⟨hwf, ⟨[], by simp⟩, by simp [identNames, addNames],
              fun n i ht => by simp at ht, fun q' hq' => Or.inl hq'⟩
          · rename_i hns
            obtain ⟨rfl, rfl, rfl⟩ :
                t = Token.Identifier (String.mk ((c :: rest).takeWhile identChar))
                      (getIdentifierIndex st
                        (String.mk ((c :: rest).takeWhile identChar))).1 ∧
                cs' = (c :: rest).dropWhile identChar ∧
                st' = (getIdentifierIndex st
                        (String.mk ((c :: rest).takeWhile identChar))).2 := by
              simpa using h.symm
            obtain ⟨hwf', ⟨ext, hext, hname⟩, hlk, hfst⟩ :=
              getIdentifierIndex_spec st
                (String.mk ((c :: rest).takeWhile identChar)) hwf
            refine ⟨hwf', ⟨ext, hext⟩, by simpa [identNames] using hfst, ?_, ?_⟩
            · intro n i ht
              obtain ⟨rfl, rfl⟩ :
                  n = String.mk ((c :: rest).takeWhile identChar) ∧
                  i = (getIdentifierIndex st
                        (String.mk ((c :: rest).takeWhile identChar))).1 := by
                simpa using ht.symm
              exact ⟨hlk, hns⟩
            · intro q hq
              rw [hext] at hq
              rcases List.mem_append.mp hq with hq1 | hq2
              · exact Or.inl hq1
              · exact Or.inr (by rw [hname q hq2]; exact hns)
        · exact absurd h (by simp)

theorem tokenizeAux_inv : ∀ (fuel : Nat) (cs : List Char) (st : LexState)
    (toks : List Token) (st' : LexState),
    tokenizeAux fuel cs st = .ok (toks, st') → LexInv st →
    LexInv st' ∧
    (∃ ext, st'.table = st.table ++ ext) ∧
    st'.table.map Prod.fst = addNames (st.table.map Prod.fst) (identNames toks) ∧
    (∀ n i, Token.Identifier n i ∈ toks → lookupA st'.table n = some i) ∧
    (∀ q ∈ st'.table, q ∈ st.table ∨ q.1.toLower ≠ "sqrt") := by
  intro fuel
  induction fuel with
  | zero =>
      intro cs st toks st' h
      exact absurd h (by simp [tokenizeAux])
  | succ n ih =>
      intro cs st toks st' h hwf
      simp only [tokenizeAux] at h
      split at h
      · exact absurd h (by simp)
      · obtain ⟨rfl, rfl⟩ : toks = [] ∧ st' = st := by simpa using h.symm
        exact ⟨hwf, ⟨[], by simp⟩, by simp [identNames, addNames],
          by simp, fun q hq => Or.inl hq⟩
      · rename_i t cs1 st1 hnt
        split at h
        · exact absurd h (by simp)
        · rename_i hrec
          injection h with h2
          injection h2 with h2a h2b
          subst h2a
          subst h2b
          obtain ⟨hwf1, ⟨ext1, hext1⟩, hfst1, hid1, hq1⟩ :=
            nextToken_step cs st t cs1 st1 hnt hwf
          obtain ⟨hwf2, ⟨ext2, hext2⟩, hfst2, hid2, hq2⟩ :=
            ih cs1 st1 _ _ hrec hwf1
          refine ⟨hwf2, ⟨ext1 ++ ext2, by rw [hext2, hext1, List.append_assoc]⟩,
            ?_, ?_, ?_⟩
          · rw [hfst2, hfst1]
            cases t <;> simp [identNames, addNames]
          · intro n i hmem
            rcases List.mem_cons.mp hmem with heq | hmem1
            · obtain ⟨hlk, _⟩ := hid1 n i heq.symm
              rw [hext2]
              exact lookupA_append_some _ _ _ _ hlk
            · exact hid2 n i hmem1
          · intro q hq
            rcases hq2 q hq with hin1 | hns
            · rcases hq1 q hin1 with hin0 | hns
              · exact Or.inl hin0
              · exact Or.inr hns
            · exact Or.inr hns

/-- Claim C8: after one tokenization, the identifier table maps the distinct
identifier names, in first-occurrence order, to the indices `1, 2, …` in
order (never reused or reassigned); every identifier token's index agrees
with the table (same name, same index); and no spelling of `sqrt` (in any
letter case) is ever entered into the table or emitted as an identifier. -/
theorem lexer_identifier_interning (cs : List Char) (toks : List Token)
    (st : LexState) (h : Lexer.tokenize cs = .ok (toks, st)) :
    st.table.map Prod.snd = List.range' 1 st.table.length ∧
    st.table.map Prod.fst = addNames [] (identNames toks) ∧
    (∀ n i, Token.Identifier n i ∈ toks → lookupA st.table n = some i) ∧
    (∀ q ∈ st.table, q.1.toLower ≠ "sqrt") ∧
    (∀ n i, Token.Identifier n i ∈ toks → n.toLower ≠ "sqrt") := by
  obtain ⟨⟨hsnd, _⟩, _, hfst, hid, hq⟩ :=
    tokenizeAux_inv (cs.length + 1) cs ⟨[], 1⟩ toks st h ⟨rfl, rfl⟩
  have hq' : ∀ q ∈ st.table, q.1.toLower ≠ "sqrt" := by
    intro q hmem
    rcases hq q hmem with hin | hns
    · exact absurd hin (by simp)
    · exact hns
  refine ⟨hsnd, by simpa using hfst, hid, hq', ?_⟩
  intro n i hmem
  exact hq' (n, i) (lookupA_mem _ _ _ (hid n i hmem))

/-- Witness for C8 on the input `a b a SQRT c`. -/
theorem lexer_identifier_interning_witness :
    (LexState.mk [("a", 1), ("b", 2), ("c", 3)] 4).table.map Prod.snd =
      List.range' 1 (LexState.mk [("a", 1), ("b", 2), ("c", 3)] 4).table.length ∧
    lookupA (LexState.mk [("a", 1), ("b", 2), ("c", 3)] 4).table "a" = some 1 ∧
    "b".toLower ≠ "sqrt" :=
  have h := lexer_identifier_interning "a b a SQRT c".data
    [Token.Identifier "a" 1, Token.Identifier "b" 2, Token.Identifier "a" 1,
      Token.Sqrt, Token.Identifier "c" 3]
    (LexState.mk [("a", 1), ("b", 2), ("c", 3)] 4) (by with_unfolding_all rfl)
  ⟨h.1, h.2.2.1 "a" 1 (by simp), h.2.2.2.2 "b" 2 (by simp)⟩

/-- Claim C9: compiling the empty input (no lexemes) fails with
`UnexpectedEndOfInput`, and every lexical or syntactic hard failure makes
`from_input` return that error — no `ParseResult` (hence no partial AST or
TAC) is produced or exposed. -/
theorem hard_failures_abort_compilation :
    (ParseResult.fromInput "" = .error .UnexpectedEndOfInput) ∧
    (∀ (s : String) (st : LexState), Lexer.tokenize s.data = .ok ([], st) →
      ParseResult.fromInput s = .error .UnexpectedEndOfInput) ∧
    (∀ (s : String) (e : ParseError), Lexer.tokenize s.data = .error e →
      ParseResult.fromInput s = .error e) ∧
    (∀ (s : String) (toks : List Token) (st : LexState) (e : ParseError),
      Lexer.tokenize s.data = .ok (toks, st) → Parser.parse toks = .error e →
      ParseResult.fromInput s = .error e) := by
  refine ⟨by with_unfolding_all rfl, ?_, ?_, ?_⟩
  · intro s st h
    simp [ParseResult.fromInput, h]
  · intro s e h
    simp [ParseResult.fromInput, h]
  · intro s toks st e h1 h2
    simp only [ParseResult.fromInput, h1]
    cases toks with
    | nil =>
        have : Parser.parse ([] : List Token) =
            .error ParseError.UnexpectedEndOfInput := rfl
        rw [this] at h2
        obtain rfl : ParseError.UnexpectedEndOfInput = e := by simpa using h2
        simp
    | cons t ts =>
        simp [h2]

/-- Witness for C9: a bad character aborts the whole compilation. -/
theorem hard_failures_abort_compilation_witness :
    ParseResult.fromInput "@" = .error (.InvalidToken "@") :=
  hard_failures_abort_compilation.2.2.1 "@" (.InvalidToken "@")
    (by with_unfolding_all rfl)

theorem parseRatNum_nonneg (cs : List Char) (q : ℚ)
    (h : parseRatNum cs = some q) : 0 ≤ q := by
  unfold parseRatNum at h
  split_ifs at h
  obtain rfl : _ = q := by simpa using h
  positivity

theorem opToken_not_number (c : Char) (tk : Token) (h : opToken c = some tk) :
    ∀ q, tk ≠ .Number q := by
  unfold opToken at h
  split_ifs at h <;>
    (injection h with h2
     subst h2
     simp)

theorem nextToken_number_nonneg (cs : List Char) (st : LexState) (t : Token)
    (cs' : List Char) (st' : LexState)
    (h : nextToken cs st = .ok (some (t, cs', st'))) :
    ∀ q, t = .Number q → 0 ≤ q := by
  simp only [nextToken] at h
  split at h
  · exact absurd h (by simp)
  · rename_i c rest hdrop
    split at h
    · rename_i tk hop
      obtain ⟨rfl, rfl, rfl⟩ : t = tk ∧ cs' = rest ∧ st' = st := by
        simpa using h.symm
      intro q hq
      exact absurd hq (opToken_not_number c _ hop q)
    · split at h
      · split at h
        · rename_i q0 hq0
          obtain ⟨rfl, rfl, rfl⟩ :
              t = Token.Number q0 ∧
              cs' = (c :: rest).dropWhile numChar ∧ st' = st := by
            simpa using h.symm
          intro q hq
          obtain rfl : q0 = q := by simpa using hq
          exact parseRatNum_nonneg _ _ hq0
        · exact absurd h (by simp)
      · split at h
        · split at h
          · obtain ⟨rfl, rfl, rfl⟩ :
                t = Token.Sqrt ∧
                cs' = (c :: rest).dropWhile identChar ∧ st' = st := by
              simpa using h.symm
            intro q hq
            simp at hq
          · obtain ⟨rfl, rfl, rfl⟩ :
                t = Token.Identifier (String.mk ((c :: rest).takeWhile identChar))
                      (getIdentifierIndex st
                        (String.mk ((c :: rest).takeWhile identChar))).1 ∧
                cs' = (c :: rest).dropWhile identChar ∧
                st' = (getIdentifierIndex st
                        (String.mk ((c :: rest).takeWhile identChar))).2 := by
              simpa using h.symm
            intro q hq
            simp at hq
        · exact absurd h (by simp)

theorem tokenizeAux_numbers_nonneg : ∀ (fuel : Nat) (cs : List Char)
    (st : LexState) (toks : List Token) (st' : LexState),
    tokenizeAux fuel cs st = .ok (toks, st') →
    ∀ q, Token.Number q ∈ toks → 0 ≤ q := by
  intro fuel
  induction fuel with
  | zero =>
      intro cs st toks st' h
      exact absurd h (by simp [tokenizeAux])
  | succ n ih =>
      intro cs st toks st' h
      simp only [tokenizeAux] at h
      split at h
      · exact absurd h (by simp)
      · obtain ⟨rfl, rfl⟩ : toks = [] ∧ st' = st := by simpa using h.symm
        simp
      · rename_i t cs1 st1 hnt
        split at h
        · exact absurd h (by simp)
        · rename_i hrec
          injection h with h2
          injection h2 with h2a h2b
          subst h2a
          subst h2b
          intro q hmem
          rcases List.mem_cons.mp hmem with heq | hmem1
          · exact nextToken_number_nonneg cs st t cs1 st1 hnt q heq.symm
          · exact ih cs1 st1 _ _ hrec q hmem1

/-- All `Number` tokens in the list are nonnegative. -/
def toksNonneg (toks : List Token) : Prop :=
  ∀ q, Token.Number q ∈ toks → 0 ≤ q

theorem parse_litsNonneg : ∀ fuel : Nat,
    (∀ toks pos a p, toksNonneg toks →
      parsePrimary fuel toks pos = .ok (a, p) → litsNonneg a = true) ∧
    (∀ toks pos a p, toksNonneg toks →
      parseUnary fuel toks pos = .ok (a, p) → litsNonneg a = true) ∧
    (∀ toks pos a p, toksNonneg toks →
      parsePower fuel toks pos = .ok (a, p) → litsNonneg a = true) ∧
    (∀ toks pos left a p, toksNonneg toks → litsNonneg left = true →
      parseMulDivLoop fuel toks pos left = .ok (a, p) → litsNonneg a = true) ∧
    (∀ toks pos a p, toksNonneg toks →
      parseMulDiv fuel toks pos = .ok (a, p) → litsNonneg a = true) ∧
    (∀ toks pos left a p, toksNonneg toks → litsNonneg left = true →
      parseAddSubLoop fuel toks pos left = .ok (a, p) → litsNonneg a = true) ∧
    (∀ toks pos a p, toksNonneg toks →
      parseAddSub fuel toks pos = .ok (a, p) → litsNonneg a = true) ∧
    (∀ toks pos a p, toksNonneg toks →
      parseExpr fuel toks pos = .ok (a, p) → litsNonneg a = true) ∧
    (∀ toks pos a p, toksNonneg toks →
      parseAssignment fuel toks pos = .ok (a, p) → litsNonneg a = true) := by
  intro fuel
  induction fuel with
  | zero =>
      refine ⟨?_, ?_, ?_, ?_, ?_, ?_, ?_, ?_, ?_⟩ <;>
        (intros
         simp_all [parsePrimary, parseUnary, parsePower, parseMulDivLoop,
           parseMulDiv, parseAddSubLoop, parseAddSub, parseExpr, parseAssignment])
  | succ n ih =>
      obtain ⟨ihPrim, ihUn, ihPow, ihMulL, ihMul, ihAddL, ihAdd, ihExpr, ihAsgn⟩ := ih
      have hPrim : ∀ toks pos a p, toksNonneg toks →
          parsePrimary (n + 1) toks pos = .ok (a, p) → litsNonneg a = true := by
        intro toks pos a p htn h
        simp only [parsePrimary] at h
        split at h
        · exact absurd h (by simp)
        · rename_i n0 hg
          obtain ⟨rfl, rfl⟩ := by simpa using h
          have : Token.Number n0 ∈ toks := List.get?_mem hg
          simp [litsNonneg, htn n0 this]
        · rename_i name idx hg
          obtain ⟨rfl, rfl⟩ := by simpa using h
          rfl
        · split at h
          · exact absurd h (by simp)
          · rename_i expr p2 hE
            have hlits := ihExpr _ _ _ _ htn hE
            split at h <;>
              (obtain ⟨rfl, rfl⟩ := by simpa using h
               exact hlits)
        · exact absurd h (by simp)
      have hUn : ∀ toks pos a p, toksNonneg toks →
          parseUnary (n + 1) toks pos = .ok (a, p) → litsNonneg a = true := by
        intro toks pos a p htn h
        simp only [parseUnary] at h
        split at h
        · split at h
          · exact absurd h (by simp)
          · rename_i o p2 hP
            have hlits := ihPrim _ _ _ _ htn hP
            obtain ⟨rfl, rfl⟩ := by simpa using h
            simp [litsNonneg, hlits]
        · exact ihPrim _ _ _ _ htn h
      have hPow : ∀ toks pos a p, toksNonneg toks →
          parsePower (n + 1) toks pos = .ok (a, p) → litsNonneg a = true := by
        intro toks pos a p htn h
        simp only [parsePower] at h
        split at h
        · exact absurd h (by simp)
        · rename_i left p1 hU
          have h1 := ihUn _ _ _ _ htn hU
          split at h
          · split at h
            · exact absurd h (by simp)
            · rename_i right p2 hR
              have h2 := ihPow _ _ _ _ htn hR
              obtain ⟨rfl, rfl⟩ := by simpa using h
              simp [litsNonneg, h1, h2]
          · obtain ⟨rfl, rfl⟩ := by simpa using h
            exact h1
      have hMulL : ∀ toks pos left a p, toksNonneg toks → litsNonneg left = true →
          parseMulDivLoop (n + 1) toks pos left = .ok (a, p) → litsNonneg a = true := by
        intro toks pos left a p htn hleft h
        simp only [parseMulDivLoop] at h
        split at h
        · split at h
          · exact absurd h (by simp)
          · rename_i right p2 hR
            have h1 := ihPow _ _ _ _ htn hR
            exact ihMulL _ _ _ _ _ htn (by simp [litsNonneg, hleft, h1]) h
        · split at h
          · exact absurd h (by simp)
          · rename_i right p2 hR
            have h1 := ihPow _ _ _ _ htn hR
            exact ihMulL _ _ _ _ _ htn (by simp [litsNonneg, hleft, h1]) h
        · obtain ⟨rfl, rfl⟩ := by simpa using h
          exact hleft
      have hMul : ∀ toks pos a p, toksNonneg toks →
          parseMulDiv (n + 1) toks pos = .ok (a, p) → litsNonneg a = true := by
        intro toks pos a p htn h
        simp only [parseMulDiv] at h
        split at h
        · exact absurd h (by simp)
        · rename_i left p1 hP
          exact ihMulL _ _ _ _ _ htn (ihPow _ _ _ _ htn hP) h
      have hAddL : ∀ toks pos left a p, toksNonneg toks → litsNonneg left = true →
          parseAddSubLoop (n + 1) toks pos left = .ok (a, p) → litsNonneg a = true := by
        intro toks pos left a p htn hleft h
        simp only [parseAddSubLoop] at h
        split at h
        · split at h
          · exact absurd h (by simp)
          · rename_i right p2 hR
            have h1 := ihMul _ _ _ _ htn hR
            exact ihAddL _ _ _ _ _ htn (by simp [litsNonneg, hleft, h1]) h
        · split at h
          · exact absurd h (by simp)
          · rename_i right p2 hR
            have h1 := ihMul _ _ _ _ htn hR
            exact ihAddL _ _ _ _ _ htn (by simp [litsNonneg, hleft, h1]) h
        · obtain ⟨rfl, rfl⟩ := by simpa using h
          exact hleft
      have hAdd : ∀ toks pos a p, toksNonneg toks →
          parseAddSub (n + 1) toks pos = .ok (a, p) → litsNonneg a = true := by
        intro toks pos a p htn h
        simp only [parseAddSub] at h
        split at h
        · exact absurd h (by simp)
        · rename_i left p1 hM
          exact ihAddL _ _ _ _ _ htn (ihMul _ _ _ _ htn hM) h
      have hExpr : ∀ toks pos a p, toksNonneg toks →
          parseExpr (n + 1) toks pos = .ok (a, p) → litsNonneg a = true := by
        intro toks pos a p htn h
        simp only [parseExpr] at h
        exact ihAdd _ _ _ _ htn h
      have hAsgn : ∀ toks pos a p, toksNonneg toks →
          parseAssignment (n + 1) toks pos = .ok (a, p) → litsNonneg a = true := by
        intro toks pos a p htn h
        simp only [parseAssignment] at h
        split at h
        · exact absurd h (by simp)
        · rename_i left p1 hE
          have h1 := ihExpr _ _ _ _ htn hE
          split at h
          · split at h
            · exact absurd h (by simp)
            · rename_i right p2 hA
              have h2 := ihAsgn _ _ _ _ htn hA
              obtain ⟨rfl, rfl⟩ := by simpa using h
              simp [litsNonneg, h1, h2]
          · obtain ⟨rfl, rfl⟩ := by simpa using h
            exact h1
      exact ⟨hPrim, hUn, hPow, hMulL, hMul, hAddL, hAdd, hExpr, hAsgn⟩

theorem semanticCheck_no_negBase_warning : ∀ t : ASTNode,
    litsNonneg t = true →
    "Warning: Negative base with fractional exponent may produce complex numbers"
      ∉ semanticCheck t := by
  intro t
  induction t with
  | Number n => intro h; simp [semanticCheck]
  | Identifier s i => intro h; simp [semanticCheck]
  | UnaryOp op o iho =>
      intro h
      simp only [semanticCheck]
      exact iho (by simpa [litsNonneg] using h)
  | BinaryOp op l r ihl ihr =>
      intro h
      obtain ⟨hl, hr⟩ : litsNonneg l = true ∧ litsNonneg r = true := by
        simpa [litsNonneg] using h
      simp only [semanticCheck, List.append_assoc]
      intro hmem
      rcases List.mem_append.mp hmem with hm0 | hm12
      · simp only [nodeWarnings, List.mem_append] at hm0
        rcases hm0 with ha | hb
        · split_ifs at ha with c1
          · simp at ha
          · simp at ha
        · split_ifs at hb with c2
          · obtain ⟨hop, hneg⟩ := c2
            cases l with
            | Number base =>
                cases r with
                | Number ex =>
                    simp only [negBaseFracExp, Bool.and_eq_true,
                      decide_eq_true_eq] at hneg
                    have h0 : (0 : ℚ) ≤ base := by
                      simpa [litsNonneg] using hl
                    linarith [hneg.1]
                | Identifier s i => simp [negBaseFracExp] at hneg
                | BinaryOp o2 a b => simp [negBaseFracExp] at hneg
                | UnaryOp o2 a => simp [negBaseFracExp] at hneg
            | Identifier s i => simp [negBaseFracExp] at hneg
            | BinaryOp o2 a b => simp [negBaseFracExp] at hneg
            | UnaryOp o2 a => simp [negBaseFracExp] at hneg
          · simp at hb
      · rcases List.mem_append.mp hm12 with hml | hmr
        · exact ihl hl hml
        · exact ihr hr hmr

/-- Claim C10: every AST produced by the compile pipeline contains only
nonnegative `Number` literals (the grammar has no unary minus, numeric
lexemes are unsigned, and the `sqrt` desugaring only introduces the literal
`0.5`), so the negative-base-with-fractional-exponent semantic warning is
never emitted for any AST reachable through `from_input`. -/
theorem pipeline_no_negBase_warning (s : String) (r : ParseResult)
    (h : ParseResult.fromInput s = .ok r) :
    litsNonneg r.ast = true ∧
    "Warning: Negative base with fractional exponent may produce complex numbers"
      ∉ r.semanticWarnings := by
  simp only [ParseResult.fromInput] at h
  split at h
  · exact absurd h (by simp)
  · rename_i toks st htok
    split at h
    · exact absurd h (by simp)
    · split at h
      · exact absurd h (by simp)
      · rename_i ast hast
        injection h with h2
        subst h2
        have htn : toksNonneg toks :=
          fun q hq => tokenizeAux_numbers_nonneg _ _ _ _ _ htok q hq
        simp only [Parser.parse] at hast
        split at hast
        · exact absurd hast (by simp)
        · rename_i a p hasgn
          obtain rfl : a = ast := by simpa using hast
          have hlits :=
            (parse_litsNonneg (parserFuel toks)).2.2.2.2.2.2.2.2
              toks 0 a p htn hasgn
          exact ⟨hlits, semanticCheck_no_negBase_warning a hlits⟩

/-- Witness for C10 on the input `2 ^ 5`. -/
theorem pipeline_no_negBase_warning_witness :
    litsNonneg (ParseResult.mk
      [Token.Number 2, Token.Power, Token.Number 5]
      (ASTNode.BinaryOp '^' (ASTNode.Number 2) (ASTNode.Number 5))
      [] [] ["t1 = 2 ^ 5"] (ASTNode.Number 32) []).ast = true ∧
    "Warning: Negative base with fractional exponent may produce complex numbers"
      ∉ (ParseResult.mk
      [Token.Number 2, Token.Power, Token.Number 5]
      (ASTNode.BinaryOp '^' (ASTNode.Number 2) (ASTNode.Number 5))
      [] [] ["t1 = 2 ^ 5"] (ASTNode.Number 32) []).semanticWarnings :=
  pipeline_no_negBase_warning "2 ^ 5" _ (by with_unfolding_all rfl)
